import Mathlib

/-!
Verification of the SQL sanitization / query pipeline of
`src/ollama_streamlit_app/pipeline.py` (functions `clean_sql`, `make_sql`,
`run_sql`) against its natural-language specification.

The sanitizer `clean_sql` is embedded as a pure function on `String`
(working on `List Char`), translating each Python step:
  1. the `re.sub` of the triple-backtick fence pattern (three backticks,
     then a non-greedy `.*?` with DOTALL, then three backticks) by `""`:
     leftmost removal of a fence pair together with everything between the
     fences, continuing after the match.
  2. `sql.split(";")[0] + ";"` when a `;` is present.
  3. `sql.strip()`.
  4. the line loop: keep a line whose stripped content starts
     (case-insensitively) with select/from/where/group/order/limit;
     otherwise drop it when it matches the bare identifier-list regex
     `^[a-zA-Z0-9_]+(,\s*[a-zA-Z0-9_]+)*\s*$`; otherwise keep it.
  5. `"\n".join(good)`.
  6. `re.sub(r"ORDER BY\s+ORDER BY", "ORDER BY", sql, flags=re.IGNORECASE)`.
  7. final `.strip()`.
Python regex scanning (leftmost match, continue after the replaced match,
no rescanning of replacements) is modelled by fuelled recursions whose
fuel, set to the length of the input, never runs out on the actual calls.
-/

/-- The backtick character (U+0060). -/
def backtick : Char := Char.ofNat 96

/-- Whitespace in the sense of Python `str.strip` / `str.isspace`. -/
def isPySpace (c : Char) : Bool :=
  c = ' ' || c = '\t' || c = '\n' || c = '\x0b' || c = '\x0c' || c = '\r' ||
  c = '\x1c' || c = '\x1d' || c = '\x1e' || c = '\x1f' || c = '\x85' || c = '\xa0' ||
  c = ' ' || (' ' ≤ c && c ≤ ' ') || c = ' ' || c = ' ' ||
  c = ' ' || c = ' ' || c = '　'

/-- Whitespace matched by Python's regex class `\s` (Unicode White_Space). -/
def isReSpace (c : Char) : Bool :=
  isPySpace c && !(c = '\x1c' || c = '\x1d' || c = '\x1e' || c = '\x1f')

/-- Line-break characters of Python `str.splitlines` (`\r\n` is handled
as a single break by `splitLines` itself). -/
def isBreak (c : Char) : Bool :=
  c = '\n' || c = '\r' || c = '\x0b' || c = '\x0c' ||
  c = '\x1c' || c = '\x1d' || c = '\x1e' || c = '\x85' || c = ' ' || c = ' '

/-- Characters of the regex class `[a-zA-Z0-9_]` used by `bad_line`. -/
def identChar (c : Char) : Bool :=
  ('a' ≤ c && c ≤ 'z') || ('A' ≤ c && c ≤ 'Z') || ('0' ≤ c && c ≤ '9') || c = '_'

/-- `beginsWith p cs` holds when `p` is an initial segment of `cs`. -/
def beginsWith : List Char → List Char → Bool
  | [], _ => true
  | _ :: _, [] => false
  | p :: ps, c :: cs => p = c && beginsWith ps cs

/-- Python `str.strip()`: remove leading and trailing whitespace. -/
def pyStrip (cs : List Char) : List Char :=
  ((cs.dropWhile isPySpace).reverse.dropWhile isPySpace).reverse

/-- Whether a triple-backtick occurs anywhere in the list. -/
def hasFence : List Char → Bool
  | [] => false
  | c :: rest => (c = backtick && beginsWith [backtick, backtick] rest) || hasFence rest

/-- Drop through the first triple-backtick occurrence, returning what follows it. -/
def dropToFence : List Char → List Char
  | [] => []
  | c :: rest =>
    if c = backtick && beginsWith [backtick, backtick] rest then rest.drop 2
    else dropToFence rest

/-- Fuelled scan for step 1: remove each leftmost fence pair together with the
enclosed text, continuing after the closing fence; an opening fence with no
closing fence is left in place (the regex finds no further match there). -/
def stripFencesF : Nat → List Char → List Char
  | 0, cs => cs
  | _ + 1, [] => []
  | fuel + 1, c :: rest =>
    if c = backtick && beginsWith [backtick, backtick] rest then
      if hasFence (rest.drop 2) then stripFencesF fuel (dropToFence (rest.drop 2))
      else c :: rest
    else c :: stripFencesF fuel rest

/-- Step 1 of `clean_sql`: `re.sub` of the non-greedy fenced-block pattern. -/
def stripFences (cs : List Char) : List Char := stripFencesF cs.length cs

/-- Step 2 of `clean_sql`: `sql.split(";")[0] + ";"` when a `;` occurs. -/
def truncateSemi (cs : List Char) : List Char :=
  if ';' ∈ cs then cs.takeWhile (fun c => !(c = ';')) ++ [';'] else cs

/-- Python `str.splitlines`: split at line breaks, treating `\r\n` as one
break; a trailing break yields no extra empty line; `""` yields no lines. -/
def splitLines : List Char → List (List Char)
  | [] => []
  | c :: rest =>
    if c = '\r' then
      match rest with
      | [] => [[]]
      | d :: rest' =>
        if d = '\n' then [] :: splitLines rest'
        else [] :: splitLines (d :: rest')
    else if isBreak c then [] :: splitLines rest
    else
      match splitLines rest with
      | [] => [[c]]
      | l :: ls => (c :: l) :: ls

/-- Python `"\n".join`. -/
def joinNL : List (List Char) → List Char
  | [] => []
  | [l] => l
  | l :: l' :: ls => l ++ '\n' :: joinNL (l' :: ls)

/-- Length of the leading run of identifier characters. -/
def identRunLen (cs : List Char) : Nat := (cs.takeWhile identChar).length

/-- Fuelled matcher for the tail `(,\s*[a-zA-Z0-9_]+)*\s*$` of the
`bad_line` regex, entered after the leading identifier run. -/
def goBad : Nat → List Char → Bool
  | _, [] => true
  | 0, _ :: _ => false
  | fuel + 1, c :: rest =>
    if c = ',' then
      let r := rest.dropWhile isReSpace
      let n := identRunLen r
      if n = 0 then false else goBad fuel (r.drop n)
    else (c :: rest).all isReSpace

/-- The `bad_line` regex `^[a-zA-Z0-9_]+(,\s*[a-zA-Z0-9_]+)*\s*$` of
`clean_sql`, as an anchored match on the whole list. -/
def badLine (cs : List Char) : Bool :=
  let n := identRunLen cs
  if n = 0 then false else goBad cs.length (cs.drop n)

/-- Case-insensitive anchored match of the lowercase pattern `ps` at the head
of `cs`; `some r` returns the unconsumed remainder. -/
def matchCI : List Char → List Char → Option (List Char)
  | [], cs => some cs
  | _ :: _, [] => none
  | p :: ps, c :: cs => if c.toLower = p then matchCI ps cs else none

/-- The `stripped.lower().startswith(("select", "from", "where", "group",
"order", "limit"))` test of the line loop. -/
def kwStart (cs : List Char) : Bool :=
  [String.toList ("select"), String.toList ("from"), String.toList ("where"),
    String.toList ("group"), String.toList ("order"), String.toList ("limit")].any
    (fun kw => (matchCI kw cs).isSome)

/-- The line loop of `clean_sql`, keeping lines in their original form. -/
def filterLines : List (List Char) → List (List Char)
  | [] => []
  | l :: ls =>
    if kwStart (pyStrip l) then l :: filterLines ls
    else if badLine (pyStrip l) then filterLines ls
    else l :: filterLines ls

/-- Declarative line classification: a line is kept exactly when its stripped
content starts with a SQL keyword or does not match the bare identifier-list
pattern. -/
def lineKept (l : List Char) : Bool :=
  kwStart (pyStrip l) || !badLine (pyStrip l)

/-- Lowercase pattern of one `ORDER BY` (the space matches only `' '`). -/
def obPat : List Char := String.toList ("order by")

/-- The replacement text `ORDER BY`. -/
def obRepl : List Char := String.toList ("ORDER BY")

/-- Anchored match of `ORDER BY\s+ORDER BY` (case-insensitive) at the head of
`cs`; `some r` returns the remainder after the match. -/
def matchOBOB (cs : List Char) : Option (List Char) :=
  match matchCI obPat cs with
  | none => none
  | some r1 =>
    if r1.takeWhile isReSpace = ([] : List Char) then none
    else matchCI obPat (r1.dropWhile isReSpace)

/-- Fuelled scan for step 6: replace each leftmost `ORDER BY\s+ORDER BY` by
`ORDER BY`, continuing after the match without rescanning the replacement. -/
def orderByF : Nat → List Char → List Char
  | 0, cs => cs
  | _ + 1, [] => []
  | fuel + 1, c :: rest =>
    match matchOBOB (c :: rest) with
    | some r3 => obRepl ++ orderByF fuel r3
    | none => c :: orderByF fuel rest

/-- Step 6 of `clean_sql`. -/
def orderBySub (cs : List Char) : List Char := orderByF cs.length cs

/-- The sanitizer `clean_sql` of `pipeline.py`, steps 1-7 in order. -/
def clean_sql (s : String) : String :=
  let c1 := stripFences s.toList
  let c2 := truncateSemi c1
  let c3 := pyStrip c2
  let c4 := joinNL (filterLines (splitLines c3))
  let c5 := orderBySub c4
  (pyStrip c5).asString

/-! ## Plan validation and query execution models

`pipeline.py` contains no PlanValidator component: `make_sql` chains two
prompt calls and `clean_sql` only. The validation stage is therefore
modelled from the spec (section 4.2), and the DuckDB store behind
`run_sql` is an external collaborator modelled at its interface. -/

/-- SchemaContext: the read-only column whitelist (spec section 3). -/
structure SchemaContext where
  columns : List String
deriving DecidableEq

/-- One filter predicate of a Plan, already split into the column it
references and the literal it compares against. -/
structure PlanFilter where
  column : String
  literal : String
deriving DecidableEq

/-- The 4-field Plan record of the spec; `aggregation` is abstracted to the
list of column names the aggregation expression references (empty for NONE). -/
structure Plan where
  columns_needed : List String
  filters : List PlanFilter
  aggregation : List String
  output_shape : String
deriving DecidableEq

/-- Substring occurrence test: `containsSub lit cs` holds when `lit` occurs
contiguously inside `cs`. -/
def containsSub (lit : List Char) : List Char → Bool
  | [] => beginsWith lit []
  | c :: cs => beginsWith lit (c :: cs) || containsSub lit cs

/-- Modelled from the spec: `parse_plan` (PlanValidator, spec section 4.2) is
absent from the source; `make_sql` passes raw plan text between two prompt
calls with no structural validation. Following the spec's words, the
labeled-line parsing is abstracted (the four fields arrive already split)
and the validation gate checks the whitelist rule — every referenced column
is a member of SchemaContext's column set — and the literal-grounding rule —
every filter literal occurs verbatim in the question; a plan violating a
rule is not produced. -/
def parse_plan (schema : SchemaContext) (question : String) (raw : Plan) : Option Plan :=
  if raw.columns_needed.all (fun c => schema.columns.contains c)
      && raw.filters.all (fun f => schema.columns.contains f.column
            && containsSub f.literal.toList question.toList)
      && raw.aggregation.all (fun c => schema.columns.contains c)
  then some raw else none

/-- Failure of the dataset store, wrapping the store's own error message
(spec section 7). -/
inductive QueryExecutionError where
  | execError : String → QueryExecutionError
deriving DecidableEq

/-- Modelled from the spec: `run_sql` of `pipeline.py` opens a transient
DuckDB connection and returns `conn.execute(sql).fetchall()` — all rows of
the store's answer, unchanged. The external store is modelled as a function
from statement text to either a `QueryExecutionError` or the row list; a
query matching zero rows answers with `Except.ok []`. -/
def run_sql {Row : Type} (store : String → Except QueryExecutionError (List Row))
    (sql : String) : Except QueryExecutionError (List Row) :=
  store sql

/-! ## Fence-removal lemmas -/

theorem stripFencesF_nil : ∀ fuel, stripFencesF fuel [] = [] := by
  intro fuel
  cases fuel <;> rfl

theorem hasFence_append_fence (mid : List Char) :
    hasFence (mid ++ [backtick, backtick, backtick]) = true := by
  induction mid with
  | nil => decide
  | cons c cs ih => simp [hasFence, ih]

theorem dropToFence_append_fence (mid : List Char) (h : backtick ∉ mid) :
    dropToFence (mid ++ [backtick, backtick, backtick]) = [] := by
  induction mid with
  | nil => decide
  | cons c cs ih =>
    have hcb : c ≠ backtick := by
      rintro rfl
      exact h (List.mem_cons_self _ _)
    have ih' := ih (fun hm => h (List.mem_cons_of_mem c hm))
    simpa [dropToFence, hcb] using ih'

theorem stripFences_fenced_empty (mid : List Char) (h : backtick ∉ mid) :
    stripFences (backtick :: backtick :: backtick :: (mid ++ [backtick, backtick, backtick])) = [] := by
  show stripFencesF _ _ = []
  have hlen : (backtick :: backtick :: backtick :: (mid ++ [backtick, backtick, backtick])).length
      = mid.length + 5 + 1 := by simp
  rw [hlen, stripFencesF]
  simp [beginsWith, hasFence_append_fence, dropToFence_append_fence _ h, stripFencesF_nil]

/-! ## Claim C1 -/

/-- C1 counterexample: sanitizing the raw text
`"```sql\nSELECT a FROM cars;\nextra, junk, line\n```"` yields `""`, not
`"SELECT a FROM cars;"` — the fence regex of `clean_sql` deletes the fenced
block together with the text enclosed between the fences. -/
theorem clean_sql_scenario2_yields_empty :
    clean_sql ("```sql\nSELECT a FROM cars;\nextra, junk, line\n```") = "" ∧
    clean_sql ("```sql\nSELECT a FROM cars;\nextra, junk, line\n```") ≠
      "SELECT a FROM cars;" := by
  exact ⟨by decide, by decide⟩

/-- C1 (amended): for an input that is one complete triple-backtick fenced
block, sanitization removes the fence markers together with the whole text
enclosed between them; in particular the raw text
`"```sql\nSELECT a FROM cars;\nextra, junk, line\n```"` sanitizes to the
empty string. -/
theorem clean_sql_fence_removes_contents :
    (∀ mid : List Char, backtick ∉ mid →
      stripFences (backtick :: backtick :: backtick ::
        (mid ++ [backtick, backtick, backtick])) = []) ∧
    clean_sql ("```sql\nSELECT a FROM cars;\nextra, junk, line\n```") = "" :=
  ⟨fun mid h => stripFences_fenced_empty mid h, by decide⟩

/-- Witness for `clean_sql_fence_removes_contents` at `mid = "sql"`. -/
theorem clean_sql_fence_removes_contents_witness :
    stripFences (backtick :: backtick :: backtick ::
      (String.toList ("sql") ++ [backtick, backtick, backtick])) = [] :=
  clean_sql_fence_removes_contents.1 (String.toList ("sql")) (by decide)

/-! ## Claim C2 -/

/-- C2 counterexample: `sanitize` is not idempotent. The `ORDER BY ORDER BY`
collapse replaces leftmost non-overlapping matches once per pass, so a triple
`ORDER BY` still changes under a second application. -/
theorem clean_sql_not_idempotent :
    clean_sql (clean_sql ("SELECT a FROM cars ORDER BY ORDER BY ORDER BY a;")) ≠
      clean_sql ("SELECT a FROM cars ORDER BY ORDER BY ORDER BY a;") ∧
    clean_sql ("SELECT a FROM cars ORDER BY ORDER BY ORDER BY a;") =
      "SELECT a FROM cars ORDER BY ORDER BY a;" ∧
    clean_sql (clean_sql ("SELECT a FROM cars ORDER BY ORDER BY ORDER BY a;")) =
      "SELECT a FROM cars ORDER BY a;" :=
  ⟨by decide, by decide, by decide⟩

/-- C2 (amended): sanitization is idempotent only on inputs already in
canonical form — whenever `sanitize(x) = x`, also
`sanitize(sanitize(x)) = sanitize(x)`; for general raw text a second
application can change the output further (triple `ORDER BY`). -/
theorem clean_sql_idempotent_on_canonical (s : String) (h : clean_sql s = s) :
    clean_sql (clean_sql s) = clean_sql s := by
  rw [h, h]

/-- Witness for `clean_sql_idempotent_on_canonical` at a canonical input. -/
theorem clean_sql_idempotent_on_canonical_witness :
    clean_sql (clean_sql ("SELECT a FROM cars;")) = clean_sql ("SELECT a FROM cars;") :=
  clean_sql_idempotent_on_canonical ("SELECT a FROM cars;") (by decide)

/-! ## Claim C5, counterexample part -/

/-- C5 counterexample: an input lacking a `;` is kept whole and no terminator
is appended, so the output of `sanitize` does not terminate with `;`. -/
theorem clean_sql_keeps_unterminated :
    clean_sql ("SELECT a FROM cars") = "SELECT a FROM cars" ∧
    ';' ∉ ("SELECT a FROM cars").toList :=
  ⟨by decide, by decide⟩

/-! ## Claim C7 -/

/-- C7: the sanitizer is embedded as a total Lean function on strings —
every Python step of `clean_sql` (regex substitution, split, strip, line
loop, join) is a total text transformation, and the embedding returns a
`String` for every input rather than an `Option`; on the completely empty
input it returns the empty string. -/
theorem clean_sql_total_empty : clean_sql ("") = "" := rfl

/-! ## Substring lemmas and Claim C4 -/

theorem beginsWith_iff (p : List Char) : ∀ cs, beginsWith p cs = true ↔ ∃ r, cs = p ++ r := by
  induction p with
  | nil =>
    intro cs
    simp [beginsWith]
  | cons x xs ih =>
    intro cs
    cases cs with
    | nil => simp [beginsWith]
    | cons c cs' =>
      simp only [beginsWith, Bool.and_eq_true, decide_eq_true_eq, ih, List.cons_append]
      constructor
      · rintro ⟨rfl, r, rfl⟩
        exact ⟨r, rfl⟩
      · rintro ⟨r, hr⟩
        injection hr with h1 h2
        exact ⟨h1.symm, r, h2⟩

theorem containsSub_iff (lit : List Char) : ∀ cs, containsSub lit cs = true ↔
    ∃ l r, cs = l ++ lit ++ r := by
  intro cs
  induction cs with
  | nil =>
    simp only [containsSub, beginsWith_iff]
    constructor
    · rintro ⟨r, hr⟩
      exact ⟨[], r, by simpa using hr⟩
    · rintro ⟨l, r, hr⟩
      obtain ⟨h1, h2⟩ := List.append_eq_nil.mp hr.symm
      obtain ⟨h3, h4⟩ := List.append_eq_nil.mp h1
      exact ⟨[], by simp [h4]⟩
  | cons c cs' ih =>
    simp only [containsSub, Bool.or_eq_true, beginsWith_iff, ih]
    constructor
    · rintro (⟨r, hr⟩ | ⟨l, r, hr⟩)
      · exact ⟨[], r, by simpa using hr⟩
      · exact ⟨c :: l, r, by simp [hr]⟩
    · rintro ⟨l, r, hr⟩
      cases l with
      | nil => exact Or.inl ⟨r, by simpa using hr⟩
      | cons x l' =>
        right
        have hr' : c :: cs' = x :: (l' ++ (lit ++ r)) := by simpa using hr
        injection hr' with h1 h2
        exact ⟨l', r, by simpa using h2⟩

/-- C4: every Plan produced by the plan-validation stage satisfies the
whitelist invariant — each column name referenced in `columns_needed`,
`filters`, or `aggregation` is a member of SchemaContext's column set — and
the literal-grounding invariant — each filter literal occurs verbatim
(as a contiguous substring) in the source question text. -/
theorem parse_plan_whitelist_grounded (schema : SchemaContext) (question : String)
    (raw p : Plan) (h : parse_plan schema question raw = some p) :
    (∀ c ∈ p.columns_needed, c ∈ schema.columns) ∧
    (∀ f ∈ p.filters, f.column ∈ schema.columns ∧
      ∃ l r, question.toList = l ++ f.literal.toList ++ r) ∧
    (∀ c ∈ p.aggregation, c ∈ schema.columns) := by
  unfold parse_plan at h
  split at h
  case isFalse => exact absurd h (by simp)
  case isTrue hcond =>
    obtain rfl : raw = p := by simpa using h
    obtain ⟨⟨h1, h2⟩, h3⟩ := by
      simpa only [Bool.and_eq_true] using hcond
    refine ⟨?_, ?_, ?_⟩
    · intro c hc
      exact List.mem_of_elem_eq_true (List.all_eq_true.mp h1 c hc)
    · intro f hf
      have := List.all_eq_true.mp h2 f hf
      obtain ⟨hcol, hlit⟩ := Bool.and_eq_true_iff.mp this
      exact ⟨List.mem_of_elem_eq_true hcol, (containsSub_iff _ _).mp hlit⟩
    · intro c hc
      exact List.mem_of_elem_eq_true (List.all_eq_true.mp h3 c hc)

/-- Witness for `parse_plan_whitelist_grounded` on a concrete schema,
question and plan. -/
theorem parse_plan_whitelist_grounded_witness :
    (∀ c ∈ (Plan.mk ["city"] [PlanFilter.mk "pop_avg_vehicle_age_years" "10"]
        ["pop_vehicle_population"] "one row per city").columns_needed,
      c ∈ (SchemaContext.mk
        ["city", "pop_avg_vehicle_age_years", "pop_vehicle_population"]).columns) ∧
    (∀ f ∈ (Plan.mk ["city"] [PlanFilter.mk "pop_avg_vehicle_age_years" "10"]
        ["pop_vehicle_population"] "one row per city").filters,
      f.column ∈ (SchemaContext.mk
        ["city", "pop_avg_vehicle_age_years", "pop_vehicle_population"]).columns ∧
      ∃ l r, ("Which city has the highest retirement rate among vehicles older than 10 years?").toList
        = l ++ f.literal.toList ++ r) ∧
    (∀ c ∈ (Plan.mk ["city"] [PlanFilter.mk "pop_avg_vehicle_age_years" "10"]
        ["pop_vehicle_population"] "one row per city").aggregation,
      c ∈ (SchemaContext.mk
        ["city", "pop_avg_vehicle_age_years", "pop_vehicle_population"]).columns) :=
  parse_plan_whitelist_grounded
    (SchemaContext.mk ["city", "pop_avg_vehicle_age_years", "pop_vehicle_population"])
    ("Which city has the highest retirement rate among vehicles older than 10 years?")
    (Plan.mk ["city"] [PlanFilter.mk "pop_avg_vehicle_age_years" "10"]
      ["pop_vehicle_population"] "one row per city")
    (Plan.mk ["city"] [PlanFilter.mk "pop_avg_vehicle_age_years" "10"]
      ["pop_vehicle_population"] "one row per city")
    (by decide)

/-! ## Claim C8 -/

/-- C8: executing a query the store answers with zero rows returns the empty
`ResultSet` through `run_sql` as a normal `Except.ok` outcome, which is
distinguishable from (never equal to) any `QueryExecutionError`. -/
theorem run_sql_empty_result_ok {Row : Type}
    (store : String → Except QueryExecutionError (List Row)) (sql : String)
    (h : store sql = Except.ok ([] : List Row)) :
    run_sql store sql = Except.ok ([] : List Row) ∧
    ∀ e : QueryExecutionError, run_sql store sql ≠ Except.error e := by
  refine ⟨h, ?_⟩
  intro e hcontra
  rw [run_sql, h] at hcontra
  exact Except.noConfusion hcontra

/-- Witness for `run_sql_empty_result_ok` on a concrete zero-row store. -/
theorem run_sql_empty_result_ok_witness :
    run_sql (fun _ => Except.ok ([] : List Nat)) ("SELECT city FROM cars") =
      Except.ok ([] : List Nat) ∧
    ∀ e : QueryExecutionError,
      run_sql (fun _ => Except.ok ([] : List Nat)) ("SELECT city FROM cars") ≠
        Except.error e :=
  run_sql_empty_result_ok (fun _ => Except.ok ([] : List Nat)) ("SELECT city FROM cars") rfl

/-! ## Line-splitting and joining lemmas -/

theorem splitLines_crlf (rest : List Char) :
    splitLines ('\r' :: '\n' :: rest) = [] :: splitLines rest := rfl

theorem splitLines_cr_cons (c : Char) (rest : List Char) (h : ¬(c = '\n')) :
    splitLines ('\r' :: c :: rest) = [] :: splitLines (c :: rest) := by
  rw [splitLines.eq_def]
  simp [h]

theorem splitLines_break (c : Char) (rest : List Char) (h1 : ¬(c = '\r'))
    (h2 : isBreak c = true) : splitLines (c :: rest) = [] :: splitLines rest := by
  rw [splitLines.eq_def]
  simp [h1, h2]

theorem splitLines_chr (c : Char) (rest : List Char) (h2 : isBreak c = false) :
    splitLines (c :: rest) =
      match splitLines rest with
      | [] => [[c]]
      | l :: ls => (c :: l) :: ls := by
  have h1 : ¬(c = '\r') := by
    rintro rfl
    exact absurd h2 (by decide)
  rw [splitLines.eq_def]
  simp [h1, h2]

theorem splitLines_ne_nil (c : Char) (rest : List Char) : splitLines (c :: rest) ≠ [] := by
  rw [splitLines.eq_def]
  by_cases h1 : c = '\r'
  · subst h1
    cases rest with
    | nil => simp
    | cons d rest' =>
      by_cases hd : d = '\n' <;> simp [hd]
  · by_cases h2 : isBreak c = true
    · simp [h1, h2]
    · cases hsp : splitLines rest <;> simp [h1, h2, hsp]

theorem joinNL_cons (l : List Char) (ls : List (List Char)) (h : ls ≠ []) :
    joinNL (l :: ls) = l ++ '\n' :: joinNL ls := by
  cases ls with
  | nil => exact absurd rfl h
  | cons a as => rfl

theorem mem_splitLines : ∀ cs : List Char, ∀ l ∈ splitLines cs, ∀ c ∈ l, c ∈ cs := by
  intro cs
  induction cs using splitLines.induct with
  | case1 => simp [splitLines]
  | case2 =>
    intro l hl c hc
    simp only [show splitLines ['\r'] = [[]] from rfl, List.mem_singleton] at hl
    subst hl
    simp at hc
  | case3 rest ih =>
    intro l hl c hc
    rw [splitLines_crlf] at hl
    rcases List.mem_cons.mp hl with rfl | hl'
    · simp at hc
    · exact List.mem_cons_of_mem _ (List.mem_cons_of_mem _ (ih l hl' c hc))
  | case4 d rest hd ih =>
    intro l hl c hc
    rw [splitLines_cr_cons d rest hd] at hl
    rcases List.mem_cons.mp hl with rfl | hl'
    · simp at hc
    · exact List.mem_cons_of_mem _ (ih l hl' c hc)
  | case5 d rest h1 h2 ih =>
    intro l hl c hc
    rw [splitLines_break d rest h1 h2] at hl
    rcases List.mem_cons.mp hl with rfl | hl'
    · simp at hc
    · exact List.mem_cons_of_mem _ (ih l hl' c hc)
  | case6 d rest h1 h2 hsp ih =>
    intro l hl c hc
    rw [splitLines_chr d rest (by simpa using h2), hsp] at hl
    simp only [List.mem_singleton] at hl
    subst hl
    simp only [List.mem_singleton] at hc
    subst hc
    exact List.mem_cons_self _ _
  | case7 d rest h1 h2 l0 ls hsp ih =>
    intro l hl c hc
    rw [splitLines_chr d rest (by simpa using h2), hsp] at hl
    rcases List.mem_cons.mp hl with rfl | hl'
    · rcases List.mem_cons.mp hc with rfl | hc'
      · exact List.mem_cons_self _ _
      · exact List.mem_cons_of_mem _ (ih l0 (hsp ▸ List.mem_cons_self _ _) c hc')
    · exact List.mem_cons_of_mem _ (ih l (hsp ▸ List.mem_cons_of_mem _ hl') c hc)

theorem mem_joinNL {c : Char} : ∀ ls : List (List Char), c ∈ joinNL ls →
    c = '\n' ∨ ∃ l ∈ ls, c ∈ l := by
  intro ls
  induction ls with
  | nil => simp [joinNL]
  | cons l ls ih =>
    intro h
    cases ls with
    | nil =>
      exact Or.inr ⟨l, List.mem_singleton_self l, by simpa [joinNL] using h⟩
    | cons a as =>
      rw [joinNL_cons l (a :: as) (by simp)] at h
      rcases List.mem_append.mp h with h' | h'
      · exact Or.inr ⟨l, List.mem_cons_self _ _, h'⟩
      · rcases List.mem_cons.mp h' with rfl | h''
        · exact Or.inl rfl
        · rcases ih h'' with hnl | ⟨l', hl', hc⟩
          · exact Or.inl hnl
          · exact Or.inr ⟨l', List.mem_cons_of_mem _ hl', hc⟩

theorem joinNL_length_tail_le (l : List Char) (ls : List (List Char)) :
    (joinNL ls).length ≤ (joinNL (l :: ls)).length := by
  cases ls with
  | nil => simp [joinNL]
  | cons a as =>
    rw [joinNL_cons l (a :: as) (by simp)]
    simp
    omega

theorem joinNL_length_head_le (l : List Char) (ls : List (List Char)) :
    l.length ≤ (joinNL (l :: ls)).length := by
  cases ls with
  | nil => simp [joinNL]
  | cons a as =>
    rw [joinNL_cons l (a :: as) (by simp)]
    simp

theorem joinNL_length_cons_cons (c : Char) (l : List Char) (ls : List (List Char)) :
    (joinNL ((c :: l) :: ls)).length = (joinNL (l :: ls)).length + 1 := by
  cases ls with
  | nil => simp [joinNL]
  | cons a as =>
    rw [joinNL_cons (c :: l) (a :: as) (by simp), joinNL_cons l (a :: as) (by simp)]
    simp only [List.length_append, List.length_cons]
    omega

theorem joinNL_filter_length_le (p : List Char → Bool) :
    ∀ ls : List (List Char), (joinNL (ls.filter p)).length ≤ (joinNL ls).length := by
  intro ls
  induction ls with
  | nil => simp
  | cons l ls ih =>
    rw [List.filter_cons]
    by_cases hp : p l = true
    · rw [if_pos hp]
      cases hfs : ls.filter p with
      | nil => simpa [joinNL] using joinNL_length_head_le l ls
      | cons f fs =>
        have hls : ls ≠ [] := by
          rintro rfl
          simp at hfs
        rw [joinNL_cons l (f :: fs) (by simp), joinNL_cons l ls hls]
        have := ih
        rw [hfs] at this
        simp only [List.length_append, List.length_cons]
        omega
    · rw [if_neg hp]
      exact le_trans ih (joinNL_length_tail_le l ls)

theorem joinNL_splitLines_length : ∀ cs : List Char,
    (joinNL (splitLines cs)).length ≤ cs.length := by
  intro cs
  induction cs using splitLines.induct with
  | case1 => simp [splitLines, joinNL]
  | case2 => simp [show splitLines ['\r'] = [[]] from rfl, joinNL]
  | case3 rest ih =>
    rw [splitLines_crlf]
    calc (joinNL ([] :: splitLines rest)).length
        ≤ (joinNL (splitLines rest)).length + 1 := by
          cases hsp : splitLines rest with
          | nil => simp [joinNL]
          | cons l ls => rw [joinNL_cons [] (l :: ls) (by simp)]; simp
      _ ≤ rest.length + 1 := by omega
      _ ≤ ('\r' :: '\n' :: rest).length := by simp
  | case4 d rest hd ih =>
    rw [splitLines_cr_cons d rest hd]
    calc (joinNL ([] :: splitLines (d :: rest))).length
        ≤ (joinNL (splitLines (d :: rest))).length + 1 := by
          cases hsp : splitLines (d :: rest) with
          | nil => simp [joinNL]
          | cons l ls => rw [joinNL_cons [] (l :: ls) (by simp)]; simp
      _ ≤ (d :: rest).length + 1 := by omega
      _ = ('\r' :: d :: rest).length := by simp
  | case5 d rest h1 h2 ih =>
    rw [splitLines_break d rest h1 h2]
    calc (joinNL ([] :: splitLines rest)).length
        ≤ (joinNL (splitLines rest)).length + 1 := by
          cases hsp : splitLines rest with
          | nil => simp [joinNL]
          | cons l ls => rw [joinNL_cons [] (l :: ls) (by simp)]; simp
      _ ≤ rest.length + 1 := by omega
      _ = (d :: rest).length := by simp
  | case6 d rest h1 h2 hsp ih =>
    rw [splitLines_chr d rest (by simpa using h2), hsp]
    simp [joinNL]
  | case7 d rest h1 h2 l0 ls hsp ih =>
    rw [splitLines_chr d rest (by simpa using h2), hsp]
    rw [hsp] at ih
    have := joinNL_length_cons_cons d l0 ls
    simp only [List.length_cons]
    omega

theorem splitLines_single : ∀ cs : List Char, cs ≠ [] →
    (∀ c ∈ cs, isBreak c = false) → splitLines cs = [cs] := by
  intro cs
  induction cs using splitLines.induct with
  | case1 => intro h _; exact absurd rfl h
  | case2 =>
    intro _ hb
    exact absurd (hb '\r' (List.mem_singleton_self _)) (by decide)
  | case3 rest ih =>
    intro _ hb
    exact absurd (hb '\r' (List.mem_cons_self _ _)) (by decide)
  | case4 d rest hd ih =>
    intro _ hb
    exact absurd (hb '\r' (List.mem_cons_self _ _)) (by decide)
  | case5 d rest h1 h2 ih =>
    intro _ hb
    exact absurd (hb d (List.mem_cons_self _ _)) (by simp [h2])
  | case6 d rest h1 h2 hsp ih =>
    intro _ hb
    have hrest : rest = [] := by
      cases rest with
      | nil => rfl
      | cons x xs => exact absurd hsp (splitLines_ne_nil x xs)
    subst hrest
    rw [splitLines_chr d [] (by simpa using h2)]
    simp [splitLines]
  | case7 d rest h1 h2 l0 ls hsp ih =>
    intro _ hb
    have hrest : rest ≠ [] := by
      rintro rfl
      simp [splitLines] at hsp
    have := ih hrest (fun c hc => hb c (List.mem_cons_of_mem _ hc))
    rw [this] at hsp
    obtain ⟨rfl, rfl⟩ : l0 = rest ∧ ls = [] := by
      injection hsp.symm with ha hb2
      exact ⟨ha, hb2⟩
    rw [splitLines_chr d _ (by simpa using h2), this]

theorem splitLines_last_semi : ∀ cs : List Char, ∀ pre, cs = pre ++ [';'] → ';' ∉ pre →
    ∃ init l0, splitLines cs = init ++ [l0 ++ [';']] ∧ (∀ l ∈ init, ';' ∉ l) ∧ ';' ∉ l0 := by
  intro cs
  induction cs using splitLines.induct with
  | case1 =>
    intro pre h _
    exact absurd h.symm (by simp)
  | case2 =>
    intro pre h _
    cases pre with
    | nil => exact absurd h (by decide)
    | cons p pre1 =>
      simp only [List.cons_append] at h
      injection h with h1 h2
      exact absurd h2.symm (by simp)
  | case3 rest ih =>
    intro pre h hs
    cases pre with
    | nil =>
      simp only [List.nil_append] at h
      injection h with h1 h2
      exact absurd h1 (by decide)
    | cons p pre1 =>
      simp only [List.cons_append] at h
      injection h with h1 h2
      cases pre1 with
      | nil =>
        simp only [List.nil_append] at h2
        injection h2 with h3 h4
        exact absurd h3 (by decide)
      | cons q pre2 =>
        simp only [List.cons_append] at h2
        injection h2 with h3 h4
        have hs2 : ';' ∉ pre2 :=
          fun hm => hs (List.mem_cons_of_mem _ (List.mem_cons_of_mem _ hm))
        obtain ⟨init, l0, heq, hinit, hl0⟩ := ih pre2 h4 hs2
        refine ⟨[] :: init, l0, ?_, ?_, hl0⟩
        · rw [splitLines_crlf, heq]
          rfl
        · intro l hl
          rcases List.mem_cons.mp hl with rfl | hl'
          · simp
          · exact hinit l hl'
  | case4 d rest hd ih =>
    intro pre h hs
    cases pre with
    | nil =>
      simp only [List.nil_append] at h
      injection h with h1 h2
      exact absurd h1 (by decide)
    | cons p pre1 =>
      simp only [List.cons_append] at h
      injection h with h1 h2
      have hs1 : ';' ∉ pre1 := fun hm => hs (List.mem_cons_of_mem _ hm)
      obtain ⟨init, l0, heq, hinit, hl0⟩ := ih pre1 h2 hs1
      refine ⟨[] :: init, l0, ?_, ?_, hl0⟩
      · rw [splitLines_cr_cons d rest hd, heq]
        rfl
      · intro l hl
        rcases List.mem_cons.mp hl with rfl | hl'
        · simp
        · exact hinit l hl'
  | case5 d rest h1b h2b ih =>
    intro pre h hs
    cases pre with
    | nil =>
      simp only [List.nil_append] at h
      injection h with h1 h2
      subst h1
      exact absurd h2b (by decide)
    | cons p pre1 =>
      simp only [List.cons_append] at h
      injection h with h1 h2
      have hs1 : ';' ∉ pre1 := fun hm => hs (List.mem_cons_of_mem _ hm)
      obtain ⟨init, l0, heq, hinit, hl0⟩ := ih pre1 h2 hs1
      refine ⟨[] :: init, l0, ?_, ?_, hl0⟩
      · rw [splitLines_break d rest h1b h2b, heq]
        rfl
      · intro l hl
        rcases List.mem_cons.mp hl with rfl | hl'
        · simp
        · exact hinit l hl'
  | case6 d rest hc1 hc2 hsp ih =>
    intro pre h hs
    have hrest : rest = [] := by
      cases rest with
      | nil => rfl
      | cons x xs => exact absurd hsp (splitLines_ne_nil x xs)
    subst hrest
    cases pre with
    | nil =>
      simp only [List.nil_append] at h
      injection h with h1 h2
      subst h1
      exact ⟨[], [], by decide, by simp, by simp⟩
    | cons p pre1 =>
      simp only [List.cons_append] at h
      injection h with h1 h2
      exact absurd h2.symm (by simp)
  | case7 d rest hc1 hc2 l0' ls hsp ih =>
    intro pre h hs
    cases pre with
    | nil =>
      simp only [List.nil_append] at h
      injection h with h1 h2
      subst h2
      simp [splitLines] at hsp
    | cons p pre1 =>
      simp only [List.cons_append] at h
      injection h with h1 h2
      have hdne : ¬(d = ';') := by
        rintro rfl
        exact hs (by rw [← h1]; exact List.mem_cons_self _ _)
      have hs1 : ';' ∉ pre1 := fun hm => hs (List.mem_cons_of_mem _ hm)
      obtain ⟨init, l02, heq, hinit, hl02⟩ := ih pre1 h2 hs1
      rw [hsp] at heq
      cases init with
      | nil =>
        simp only [List.nil_append] at heq
        injection heq with he1 he2
        refine ⟨[], d :: l02, ?_, by simp, ?_⟩
        · rw [splitLines_chr d rest (by simpa using hc2), hsp, he1, he2]
          simp
        · intro hm
          rcases List.mem_cons.mp hm with he | hm'
          · exact hdne he.symm
          · exact hl02 hm'
      | cons i0 init' =>
        simp only [List.cons_append] at heq
        injection heq with he1 he2
        refine ⟨(d :: i0) :: init', l02, ?_, ?_, hl02⟩
        · rw [splitLines_chr d rest (by simpa using hc2), hsp, he1, he2]
          rfl
        · intro l hl
          rcases List.mem_cons.mp hl with rfl | hl'
          · intro hm
            rcases List.mem_cons.mp hm with he | hm'
            · exact hdne he.symm
            · exact hinit i0 (List.mem_cons_self _ _) hm'
          · exact hinit l (List.mem_cons_of_mem _ hl')

/-! ## Line filter, strip, truncation and fence lemmas -/

theorem filterLines_eq_filter (ls : List (List Char)) :
    filterLines ls = ls.filter lineKept := by
  induction ls with
  | nil => rfl
  | cons l ls ih =>
    simp only [filterLines, List.filter_cons, lineKept]
    by_cases h1 : kwStart (pyStrip l) = true
    · simp [h1, ih]
    · by_cases h2 : badLine (pyStrip l) = true
      · simp [h1, h2, ih]
      · simp [h1, h2, ih]

theorem length_pyStrip_le (cs : List Char) : (pyStrip cs).length ≤ cs.length := by
  unfold pyStrip
  calc ((cs.dropWhile isPySpace).reverse.dropWhile isPySpace).reverse.length
      = ((cs.dropWhile isPySpace).reverse.dropWhile isPySpace).length := by
        rw [List.length_reverse]
    _ ≤ (cs.dropWhile isPySpace).reverse.length :=
        (List.dropWhile_sublist _).length_le
    _ = (cs.dropWhile isPySpace).length := by rw [List.length_reverse]
    _ ≤ cs.length := (List.dropWhile_sublist _).length_le

theorem mem_pyStrip {c : Char} {cs : List Char} (h : c ∈ pyStrip cs) : c ∈ cs := by
  unfold pyStrip at h
  rw [List.mem_reverse] at h
  have h2 := (List.dropWhile_sublist isPySpace).subset h
  rw [List.mem_reverse] at h2
  exact (List.dropWhile_sublist isPySpace).subset h2

theorem dropWhile_id_of_none {p : Char → Bool} {cs : List Char}
    (h : ∀ c ∈ cs, p c = false) : cs.dropWhile p = cs := by
  cases cs with
  | nil => rfl
  | cons c rest =>
    rw [List.dropWhile_cons]
    simp [h c (List.mem_cons_self _ _)]

theorem pyStrip_id_of_no_space {cs : List Char}
    (h : ∀ c ∈ cs, isPySpace c = false) : pyStrip cs = cs := by
  unfold pyStrip
  rw [dropWhile_id_of_none h,
    dropWhile_id_of_none (fun c hm => h c (List.mem_reverse.mp hm)),
    List.reverse_reverse]

theorem pyStrip_last_semi {pre : List Char} (h : ';' ∉ pre) :
    ∃ q, pyStrip (pre ++ [';']) = q ++ [';'] ∧ ';' ∉ q := by
  unfold pyStrip
  rw [List.dropWhile_append]
  by_cases hemp : (pre.dropWhile isPySpace).isEmpty
  · rw [if_pos hemp]
    refine ⟨[], ?_, by simp⟩
    decide
  · rw [if_neg hemp]
    have hsemi : ';' ∉ pre.dropWhile isPySpace :=
      fun hm => h ((List.dropWhile_sublist isPySpace).subset hm)
    refine ⟨pre.dropWhile isPySpace, ?_, hsemi⟩
    have hns : isPySpace ';' = false := by decide
    simp [List.reverse_append, List.dropWhile_cons, hns]

theorem takeWhile_ne_semi_not_mem (cs : List Char) :
    ';' ∉ cs.takeWhile (fun c => !(c = ';')) := by
  intro hm
  have := List.mem_takeWhile_imp hm
  simp at this

theorem length_takeWhile_lt_of_semi {cs : List Char} (h : ';' ∈ cs) :
    (cs.takeWhile (fun c => !(c = ';'))).length < cs.length := by
  induction cs with
  | nil => simp at h
  | cons c rest ih =>
    rw [List.takeWhile_cons]
    by_cases hc : c = ';'
    · subst hc
      simp
    · rcases List.mem_cons.mp h with he | hm
      · exact absurd he.symm hc
      · simp only [hc, decide_False, Bool.not_false, if_pos]
        simpa using ih hm

theorem length_truncateSemi_le (cs : List Char) :
    (truncateSemi cs).length ≤ cs.length := by
  unfold truncateSemi
  by_cases h : ';' ∈ cs
  · rw [if_pos h]
    have := length_takeWhile_lt_of_semi h
    simp only [List.length_append, List.length_cons, List.length_nil]
    omega
  · rw [if_neg h]

theorem truncateSemi_of_no_semi {cs : List Char} (h : ';' ∉ cs) :
    truncateSemi cs = cs := by
  unfold truncateSemi
  rw [if_neg h]

theorem truncateSemi_last_semi {cs : List Char} (h : ';' ∈ cs) :
    ∃ pre, truncateSemi cs = pre ++ [';'] ∧ ';' ∉ pre := by
  unfold truncateSemi
  rw [if_pos h]
  exact ⟨_, rfl, takeWhile_ne_semi_not_mem cs⟩

theorem dropToFence_suffix (cs : List Char) : dropToFence cs <:+ cs := by
  induction cs with
  | nil => exact List.suffix_refl _
  | cons c rest ih =>
    rw [dropToFence]
    by_cases hc : (decide (c = backtick) && beginsWith [backtick, backtick] rest) = true
    · rw [if_pos hc]
      exact (List.drop_suffix 2 rest).trans (List.suffix_cons _ _)
    · rw [if_neg hc]
      exact ih.trans (List.suffix_cons _ _)

theorem length_stripFencesF_le : ∀ (fuel : Nat) (cs : List Char),
    (stripFencesF fuel cs).length ≤ cs.length := by
  intro fuel
  induction fuel with
  | zero => intro cs; rfl
  | succ fuel ih =>
    intro cs
    cases cs with
    | nil => simp [stripFencesF]
    | cons c rest =>
      rw [stripFencesF]
      by_cases hc : (decide (c = backtick) && beginsWith [backtick, backtick] rest) = true
      · rw [if_pos hc]
        by_cases hf : hasFence (rest.drop 2) = true
        · rw [if_pos hf]
          calc (stripFencesF fuel (dropToFence (rest.drop 2))).length
              ≤ (dropToFence (rest.drop 2)).length := ih _
            _ ≤ (rest.drop 2).length := (dropToFence_suffix _).length_le
            _ ≤ rest.length := by simp
            _ ≤ (c :: rest).length := by simp
        · rw [if_neg hf]
      · rw [if_neg hc]
        have := ih rest
        simp only [List.length_cons]
        omega

theorem mem_stripFencesF {c : Char} : ∀ (fuel : Nat) (cs : List Char),
    c ∈ stripFencesF fuel cs → c ∈ cs := by
  intro fuel
  induction fuel with
  | zero => intro cs h; exact h
  | succ fuel ih =>
    intro cs h
    cases cs with
    | nil => simp [stripFencesF] at h
    | cons d rest =>
      rw [stripFencesF] at h
      by_cases hc : (decide (d = backtick) && beginsWith [backtick, backtick] rest) = true
      · rw [if_pos hc] at h
        by_cases hf : hasFence (rest.drop 2) = true
        · rw [if_pos hf] at h
          have h1 := ih _ h
          have h2 := (dropToFence_suffix (rest.drop 2)).subset h1
          have h3 := (List.drop_subset 2 rest) h2
          exact List.mem_cons_of_mem _ h3
        · rw [if_neg hf] at h
          exact h
      · rw [if_neg hc] at h
        rcases List.mem_cons.mp h with rfl | hm
        · exact List.mem_cons_self _ _
        · exact List.mem_cons_of_mem _ (ih _ hm)

theorem stripFencesF_id_of_no_backtick : ∀ (fuel : Nat) {cs : List Char},
    backtick ∉ cs → stripFencesF fuel cs = cs := by
  intro fuel
  induction fuel with
  | zero => intro cs _; rfl
  | succ fuel ih =>
    intro cs h
    cases cs with
    | nil => rfl
    | cons c rest =>
      have hc : ¬(c = backtick) := by
        rintro rfl
        exact h (List.mem_cons_self _ _)
      rw [stripFencesF]
      simp only [hc, decide_False, Bool.false_and, Bool.false_eq_true, if_false]
      rw [ih (fun hm => h (List.mem_cons_of_mem _ hm))]

theorem matchCI_spec : ∀ (ps cs r : List Char), matchCI ps cs = some r →
    ∃ pre, cs = pre ++ r ∧ pre.map Char.toLower = ps := by
  intro ps
  induction ps with
  | nil =>
    intro cs r h
    simp only [matchCI, Option.some.injEq] at h
    exact ⟨[], by simp [h], rfl⟩
  | cons p ps ih =>
    intro cs r h
    cases cs with
    | nil => simp [matchCI] at h
    | cons c cs' =>
      rw [matchCI] at h
      by_cases hc : c.toLower = p
      · rw [if_pos hc] at h
        obtain ⟨pre, heq, hmap⟩ := ih cs' r h
        exact ⟨c :: pre, by simp [heq], by simp [hmap, hc]⟩
      · rw [if_neg hc] at h
        exact absurd h (by simp)

theorem matchOBOB_spec {cs r : List Char} (h : matchOBOB cs = some r) :
    ∃ pre, cs = pre ++ r ∧ 17 ≤ pre.length ∧ ';' ∉ pre := by
  unfold matchOBOB at h
  split at h
  · exact absurd h (by simp)
  rename_i r1 h1
  by_cases hws : r1.takeWhile isReSpace = ([] : List Char)
  · rw [if_pos hws] at h
    exact absurd h (by simp)
  · rw [if_neg hws] at h
    obtain ⟨pre1, heq1, hmap1⟩ := matchCI_spec obPat cs r1 h1
    obtain ⟨pre2, heq2, hmap2⟩ := matchCI_spec obPat (r1.dropWhile isReSpace) r h
    have hlen1 : pre1.length = 8 := by
      have := congrArg List.length hmap1
      simpa using this
    have hlen2 : pre2.length = 8 := by
      have := congrArg List.length hmap2
      simpa using this
    have hsplit : r1 = r1.takeWhile isReSpace ++ r1.dropWhile isReSpace :=
      (List.takeWhile_append_dropWhile _ _).symm
    refine ⟨pre1 ++ (r1.takeWhile isReSpace ++ pre2), ?_, ?_, ?_⟩
    · rw [heq1]
      conv_lhs => rw [hsplit]
      rw [heq2]
      simp
    · have hwlen : 1 ≤ (r1.takeWhile isReSpace).length := by
        cases hw : r1.takeWhile isReSpace with
        | nil => exact absurd hw hws
        | cons a b => simp
      simp only [List.length_append]
      omega
    · intro hm
      rcases List.mem_append.mp hm with hm1 | hm2
      · have : (';' : Char).toLower ∈ obPat := by
          rw [← hmap1]
          exact List.mem_map_of_mem Char.toLower hm1
        exact absurd this (by decide)
      · rcases List.mem_append.mp hm2 with hm3 | hm4
        · have := List.mem_takeWhile_imp hm3
          exact absurd this (by decide)
        · have : (';' : Char).toLower ∈ obPat := by
            rw [← hmap2]
            exact List.mem_map_of_mem Char.toLower hm4
          exact absurd this (by decide)

theorem orderByF_nil (fuel : Nat) : orderByF fuel [] = [] := by
  cases fuel <;> rfl

theorem length_orderByF_le : ∀ (fuel : Nat) (cs : List Char),
    (orderByF fuel cs).length ≤ cs.length := by
  intro fuel
  induction fuel with
  | zero => intro cs; rfl
  | succ fuel ih =>
    intro cs
    cases cs with
    | nil => simp [orderByF]
    | cons c rest =>
      rw [orderByF]
      cases hm : matchOBOB (c :: rest) with
      | some r3 =>
        obtain ⟨pre, heq, hlen, _⟩ := matchOBOB_spec hm
        have h1 := ih r3
        have h2 : obRepl.length = 8 := by decide
        have h3 : (c :: rest).length = pre.length + r3.length := by
          rw [heq]
          simp
        simp only [List.length_append]
        omega
      | none =>
        have := ih rest
        simp only [List.length_cons]
        omega

theorem mem_orderByF {c : Char} : ∀ (fuel : Nat) (cs : List Char),
    c ∈ orderByF fuel cs → c ∈ cs ∨ c ∈ obRepl := by
  intro fuel
  induction fuel with
  | zero => intro cs h; exact Or.inl h
  | succ fuel ih =>
    intro cs h
    cases cs with
    | nil => rw [orderByF_nil] at h; simp at h
    | cons d rest =>
      rw [orderByF] at h
      cases hm : matchOBOB (d :: rest) with
      | some r3 =>
        rw [hm] at h
        rcases List.mem_append.mp h with h1 | h1
        · exact Or.inr h1
        · rcases ih r3 h1 with h2 | h2
          · obtain ⟨pre, heq, _, _⟩ := matchOBOB_spec hm
            rw [heq]
            exact Or.inl (List.mem_append_right pre h2)
          · exact Or.inr h2
      | none =>
        rw [hm] at h
        rcases List.mem_cons.mp h with rfl | h1
        · exact Or.inl (List.mem_cons_self _ _)
        · rcases ih rest h1 with h2 | h2
          · exact Or.inl (List.mem_cons_of_mem _ h2)
          · exact Or.inr h2

theorem orderByF_last_semi : ∀ (fuel : Nat) (cs pre : List Char),
    cs = pre ++ [';'] → ';' ∉ pre →
    ∃ q, orderByF fuel cs = q ++ [';'] ∧ ';' ∉ q := by
  intro fuel
  induction fuel with
  | zero =>
    intro cs pre heq hpre
    exact ⟨pre, heq, hpre⟩
  | succ fuel ih =>
    intro cs pre heq hpre
    cases cs with
    | nil => exact absurd heq.symm (by simp)
    | cons d rest =>
      rw [orderByF]
      cases hm : matchOBOB (d :: rest) with
      | some r3 =>
        show ∃ q, obRepl ++ orderByF fuel r3 = q ++ [';'] ∧ ';' ∉ q
        obtain ⟨mpre, hmeq, hmlen, hmsemi⟩ := matchOBOB_spec hm
        have hr3 : ∃ r3pre, r3 = r3pre ++ [';'] ∧ ';' ∉ r3pre := by
          cases hr : r3.reverse with
          | nil =>
            exfalso
            have hr3nil : r3 = [] := by simpa using congrArg List.reverse hr
            subst hr3nil
            rw [List.append_nil] at hmeq
            have hsm : ';' ∈ d :: rest := by
              rw [heq]
              exact List.mem_append_right pre (List.mem_singleton_self _)
            rw [hmeq] at hsm
            exact hmsemi hsm
          | cons a as =>
            have hr3eq : r3 = as.reverse ++ [a] := by
              simpa using congrArg List.reverse hr
            have hlast2 : pre ++ [';'] = (mpre ++ as.reverse) ++ [a] := by
              rw [← heq, hmeq, hr3eq]
              simp
            have hrev := congrArg List.reverse hlast2
            simp only [List.reverse_append, List.reverse_singleton,
              List.singleton_append] at hrev
            injection hrev with ha hrest2
            subst ha
            have hpr : pre = mpre ++ as.reverse := by
              simpa using congrArg List.reverse hrest2
            refine ⟨as.reverse, hr3eq, ?_⟩
            intro hmem
            refine hpre ?_
            rw [hpr]
            exact List.mem_append_right mpre hmem
        obtain ⟨r3pre, hr3eq, hr3semi⟩ := hr3
        obtain ⟨q, hq, hqsemi⟩ := ih r3 r3pre hr3eq hr3semi
        rw [hq]
        refine ⟨obRepl ++ q, by simp, ?_⟩
        intro hmem
        rcases List.mem_append.mp hmem with h1 | h1
        · exact absurd h1 (by decide)
        · exact hqsemi h1
      | none =>
        show ∃ q, d :: orderByF fuel rest = q ++ [';'] ∧ ';' ∉ q
        cases pre with
        | nil =>
          obtain ⟨rfl, rfl⟩ : d = ';' ∧ rest = [] := by
            simp only [List.nil_append] at heq
            injection heq with h1 h2
            exact ⟨h1, h2⟩
          refine ⟨[], ?_, by simp⟩
          rw [orderByF_nil]
          rfl
        | cons p pre1 =>
          simp only [List.cons_append] at heq
          injection heq with h1 h2
          have hp1 : ';' ∉ pre1 := fun hmem => hpre (List.mem_cons_of_mem _ hmem)
          obtain ⟨q, hq, hqsemi⟩ := ih rest pre1 h2 hp1
          rw [hq]
          refine ⟨d :: q, rfl, ?_⟩
          intro hmem
          rcases List.mem_cons.mp hmem with he | h3
          · subst h1
            exact hpre (he ▸ List.mem_cons_self _ _)
          · exact hqsemi h3

theorem joinNL_last_semi : ∀ (xs : List (List Char)) (l0 : List Char),
    (∀ l ∈ xs, ';' ∉ l) → ';' ∉ l0 →
    ∃ w, joinNL (xs ++ [l0 ++ [';']]) = w ++ [';'] ∧ ';' ∉ w := by
  intro xs
  induction xs with
  | nil =>
    intro l0 _ hl0
    exact ⟨l0, by simp [joinNL], hl0⟩
  | cons x xs ih =>
    intro l0 hxs hl0
    obtain ⟨w, hw, hwsemi⟩ := ih l0 (fun l hl => hxs l (List.mem_cons_of_mem _ hl)) hl0
    have hne : xs ++ [l0 ++ [';']] ≠ [] := by simp
    rw [List.cons_append, joinNL_cons x _ hne, hw]
    refine ⟨x ++ '\n' :: w, by simp, ?_⟩
    intro hm
    rcases List.mem_append.mp hm with h1 | h1
    · exact hxs x (List.mem_cons_self _ _) h1
    · rcases List.mem_cons.mp h1 with he | h2
      · exact absurd he (by decide)
      · exact hwsemi h2

theorem no_semi_joinNL_filter {ls : List (List Char)} (h : ∀ l ∈ ls, ';' ∉ l) :
    ';' ∉ joinNL (filterLines ls) := by
  intro hm
  rcases mem_joinNL _ hm with he | ⟨l, hl, hc⟩
  · exact absurd he (by decide)
  · rw [filterLines_eq_filter] at hl
    exact h l (List.mem_of_mem_filter hl) hc

theorem no_semi_tail {cs : List Char} (h : ';' ∉ cs) :
    ';' ∉ pyStrip (orderBySub cs) := by
  intro hm
  have h1 := mem_pyStrip hm
  rcases mem_orderByF _ _ h1 with h2 | h2
  · exact h h2
  · exact absurd h2 (by decide)

theorem toList_asString (l : List Char) : (List.asString l).toList = l := rfl

theorem clean_sql_eq (s : String) : clean_sql s =
    (pyStrip (orderBySub (joinNL (filterLines (splitLines
      (pyStrip (truncateSemi (stripFences s.toList)))))))).asString := rfl

theorem clean_sql_toList (s : String) : (clean_sql s).toList =
    pyStrip (orderBySub (joinNL (filterLines (splitLines
      (pyStrip (truncateSemi (stripFences s.toList))))))) := by
  rw [clean_sql_eq]
  exact toList_asString _

theorem clean_sql_semiOk (s : String) :
    ';' ∉ (clean_sql s).toList ∨
    ∃ q, (clean_sql s).toList = q ++ [';'] ∧ ';' ∉ q := by
  rw [clean_sql_toList]
  by_cases hs : ';' ∈ stripFences s.toList
  · obtain ⟨pre, htr, hpre⟩ := truncateSemi_last_semi hs
    obtain ⟨q, hps, hq⟩ := pyStrip_last_semi hpre
    rw [← htr] at hps
    obtain ⟨init, l0, hsp, hinit, hl0⟩ :=
      splitLines_last_semi (pyStrip (truncateSemi (stripFences s.toList))) q hps hq
    rw [hsp, filterLines_eq_filter, List.filter_append]
    by_cases hkeep : lineKept (l0 ++ [';']) = true
    · rw [List.filter_singleton, hkeep, cond_true]
      obtain ⟨w, hw, hwsemi⟩ := joinNL_last_semi ((init).filter lineKept) l0
        (fun l hl => hinit l (List.mem_of_mem_filter hl)) hl0
      rw [hw]
      obtain ⟨q2, hq2, hq2semi⟩ := orderByF_last_semi _ _ w rfl hwsemi
      rw [show orderBySub (w ++ [';']) = orderByF (w ++ [';']).length (w ++ [';']) from rfl,
        hq2]
      obtain ⟨q3, hq3, hq3semi⟩ := pyStrip_last_semi hq2semi
      rw [hq3]
      exact Or.inr ⟨q3, rfl, hq3semi⟩
    · rw [List.filter_singleton, show lineKept (l0 ++ [';']) = false by simpa using hkeep,
        cond_false, List.append_nil]
      left
      refine no_semi_tail ?_
      intro hm
      rcases mem_joinNL _ hm with he | ⟨l, hl, hc⟩
      · exact absurd he (by decide)
      · exact hinit l (List.mem_of_mem_filter hl) hc
  · rw [truncateSemi_of_no_semi hs]
    left
    refine no_semi_tail ?_
    refine no_semi_joinNL_filter ?_
    intro l hl hc
    exact hs (mem_pyStrip (mem_splitLines _ l hl ';' hc))

/-! ## Claims C3, C5 (amended), C10, C6, C9 -/

/-- C3: for every input string, the output of `sanitize` contains at most one
`;` character, and when a `;` is present it is the last character of the
output (nothing follows it). -/
theorem clean_sql_single_statement (s : String) :
    (clean_sql s).toList.count ';' ≤ 1 ∧
    (';' ∈ (clean_sql s).toList → (clean_sql s).toList.getLast? = some ';') := by
  rcases clean_sql_semiOk s with h | ⟨q, heq, hq⟩
  · exact ⟨by rw [List.count_eq_zero.mpr h]; omega, fun hm => absurd hm h⟩
  · constructor
    · rw [heq, List.count_append, List.count_eq_zero.mpr hq]
      simp
    · intro _
      rw [heq]
      simp

/-- C5 (amended): not every sanitized string terminates with a `;` — the
truncation step keeps inputs lacking a `;` whole and does not append one, so
an input containing no `;` produces an output containing no `;`; the
terminator guarantee holds only when the input supplies a `;` (claim C3). -/
theorem clean_sql_no_semicolon_intro (s : String) (h : ';' ∉ s.toList) :
    ';' ∉ (clean_sql s).toList := by
  rw [clean_sql_toList]
  have h1 : ';' ∉ stripFences s.toList := fun hm => h (mem_stripFencesF _ _ hm)
  rw [truncateSemi_of_no_semi h1]
  refine no_semi_tail ?_
  refine no_semi_joinNL_filter ?_
  intro l hl hc
  exact h1 (mem_pyStrip (mem_splitLines _ l hl ';' hc))

/-- C10: `sanitize` never lengthens its input — every step either removes
characters or re-appends only the `;` already counted in the kept prefix. -/
theorem clean_sql_never_lengthens (s : String) : (clean_sql s).length ≤ s.length := by
  have hgen : ∀ t : String, t.length = t.toList.length := fun t => rfl
  rw [hgen (clean_sql s), hgen s, clean_sql_toList]
  calc (pyStrip (orderBySub (joinNL (filterLines (splitLines
        (pyStrip (truncateSemi (stripFences s.toList)))))))).length
      ≤ (orderBySub (joinNL (filterLines (splitLines
        (pyStrip (truncateSemi (stripFences s.toList))))))).length := length_pyStrip_le _
    _ ≤ (joinNL (filterLines (splitLines
        (pyStrip (truncateSemi (stripFences s.toList)))))).length := length_orderByF_le _ _
    _ ≤ (joinNL (splitLines (pyStrip (truncateSemi (stripFences s.toList))))).length := by
        rw [filterLines_eq_filter]
        exact joinNL_filter_length_le _ _
    _ ≤ (pyStrip (truncateSemi (stripFences s.toList))).length := joinNL_splitLines_length _
    _ ≤ (truncateSemi (stripFences s.toList)).length := length_pyStrip_le _
    _ ≤ (stripFences s.toList).length := length_truncateSemi_le _
    _ ≤ s.toList.length := length_stripFencesF_le _ _

/-- C6: the sanitizer line filter keeps exactly the lines whose stripped
content starts (case-insensitively) with one of select/from/where/group/
order/limit or does not match the bare comma-separated identifier-list
pattern; a bare identifier-list line not classified as a SQL line is
dropped; kept lines are reassembled in their original order (the result is
a sublist of the input lines). -/
theorem filterLines_classification (ls : List (List Char)) :
    filterLines ls = ls.filter lineKept ∧ (filterLines ls).Sublist ls :=
  ⟨filterLines_eq_filter ls, by
    rw [filterLines_eq_filter]
    exact List.filter_sublist ls⟩

theorem identChar_ne_semi {c : Char} (h : identChar c = true) : ¬(c = ';') := by
  rintro rfl
  exact absurd h (by decide)

theorem identChar_ne_backtick {c : Char} (h : identChar c = true) : ¬(c = backtick) := by
  rintro rfl
  exact absurd h (by decide)

theorem identChar_not_break {c : Char} (h : identChar c = true) : isBreak c = false := by
  cases hb : isBreak c
  · rfl
  · exfalso
    simp only [isBreak, Bool.or_eq_true, decide_eq_true_eq] at hb
    rcases hb with (((((((((rfl | rfl) | rfl) | rfl) | rfl) | rfl) | rfl) | rfl) | rfl) | rfl)
    all_goals exact absurd h (by decide)

theorem identChar_not_space {c : Char} (h : identChar c = true) : isPySpace c = false := by
  cases hb : isPySpace c
  · rfl
  · exfalso
    simp only [isPySpace, Bool.or_eq_true, Bool.and_eq_true, decide_eq_true_eq] at hb
    rcases hb with ((((((((((((((((((rfl | rfl) | rfl) | rfl) | rfl) | rfl) | rfl) | rfl) | rfl) | rfl) | rfl) | rfl) | rfl) | hrange) | rfl) | rfl) | rfl) | rfl) | rfl)
    all_goals try exact absurd h (by decide)
    obtain ⟨h1, h2⟩ := hrange
    simp only [identChar, Bool.or_eq_true, Bool.and_eq_true, decide_eq_true_eq] at h
    rcases h with (((⟨_, hz⟩ | ⟨_, hZ⟩) | ⟨_, h9⟩) | rfl)
    · exact absurd (le_trans h1 hz) (by decide)
    · exact absurd (le_trans h1 hZ) (by decide)
    · exact absurd (le_trans h1 h9) (by decide)
    · exact absurd h1 (by decide)

theorem takeWhile_all {p : Char → Bool} : ∀ cs : List Char,
    (∀ c ∈ cs, p c = true) → cs.takeWhile p = cs := by
  intro cs
  induction cs with
  | nil => intro _; rfl
  | cons c rest ih =>
    intro h
    rw [List.takeWhile_cons]
    simp only [h c (List.mem_cons_self _ _), if_true]
    rw [ih (fun d hd => h d (List.mem_cons_of_mem _ hd))]

theorem badLine_all_ident {cs : List Char} (hne : cs ≠ [])
    (h : ∀ c ∈ cs, identChar c = true) : badLine cs = true := by
  have htw : cs.takeWhile identChar = cs := takeWhile_all cs h
  unfold badLine identRunLen
  rw [htw]
  have hlen : ¬(cs.length = 0) := by simpa using hne
  rw [if_neg hlen, List.drop_length]
  simp [goBad]

/-- C9: the bare-identifier-list regex of the line filter makes the
comma-separated tail optional, so it also matches a line that is one lone
identifier with no comma at all; such an input (when not classified as a
SQL line) sanitizes to the empty string. -/
theorem clean_sql_lone_identifier (s : String) (hne : s.toList ≠ [])
    (hid : ∀ c ∈ s.toList, identChar c = true) (hkw : kwStart s.toList = false) :
    badLine s.toList = true ∧ clean_sql s = "" := by
  have hbt : backtick ∉ s.toList := fun hm => identChar_ne_backtick (hid _ hm) rfl
  have hsm : ';' ∉ s.toList := fun hm => identChar_ne_semi (hid _ hm) rfl
  have hsf : stripFences s.toList = s.toList := stripFencesF_id_of_no_backtick _ hbt
  have hts : truncateSemi s.toList = s.toList := truncateSemi_of_no_semi hsm
  have hpsid : pyStrip s.toList = s.toList :=
    pyStrip_id_of_no_space (fun c hm => identChar_not_space (hid c hm))
  have hsl : splitLines s.toList = [s.toList] :=
    splitLines_single _ hne (fun c hm => identChar_not_break (hid c hm))
  have hbad : badLine s.toList = true := badLine_all_ident hne hid
  refine ⟨hbad, ?_⟩
  have hfl : filterLines [s.toList] = [] := by
    unfold filterLines
    rw [hpsid, hkw]
    simp only [Bool.false_eq_true, if_false]
    rw [hbad]
    simp [filterLines]
  rw [clean_sql_eq, hsf, hts, hpsid, hsl, hfl]
  rfl

/-- Witness for `clean_sql_single_statement` at an input whose output
contains a `;`. -/
theorem clean_sql_single_statement_witness :
    (clean_sql ("SELECT a FROM cars; DROP TABLE cars;")).toList.count ';' ≤ 1 ∧
    (clean_sql ("SELECT a FROM cars; DROP TABLE cars;")).toList.getLast? = some ';' :=
  ⟨(clean_sql_single_statement ("SELECT a FROM cars; DROP TABLE cars;")).1,
    (clean_sql_single_statement ("SELECT a FROM cars; DROP TABLE cars;")).2 (by decide)⟩

/-- Witness for `clean_sql_no_semicolon_intro` at a `;`-free input. -/
theorem clean_sql_no_semicolon_intro_witness :
    ';' ∉ (clean_sql ("SELECT a FROM cars")).toList :=
  clean_sql_no_semicolon_intro ("SELECT a FROM cars") (by decide)

/-- Witness for `clean_sql_lone_identifier` at the lone identifier `foo`. -/
theorem clean_sql_lone_identifier_witness :
    badLine ("foo").toList = true ∧ clean_sql ("foo") = "" :=
  clean_sql_lone_identifier ("foo") (by decide) (by decide) (by decide)
